import Mathlib

/-!
Verification of the ELF → TBF (Tock Binary Format) conversion performed by
`elf_to_tbf` in `src/main.rs` of the elf2tab repository.

The Rust function is shallowly embedded below.  ELF sections and program
headers become Lean structures; the stateful layout loop becomes explicit
state passing over a `LayoutState`; `u32` casts in the source become
`% 2 ^ 32`; the fallible conversion returns `Except TbfError TbfResult`.
The TBF header builder (`header.rs`) and the alignment utilities
(`util.rs`) are not part of the given sources, so those two components are
modelled from the specification text, as flagged in their doc comments.
-/

set_option maxRecDepth 40000

/-- 32-bit modulus used for every `as u32` cast in the source. -/
def U32 : Nat := 2 ^ 32

/-- Modelled from the spec: `util.rs` is missing from the sources; the spec
says the alignment utilities "round a length up to a multiple of 4 or 8".
This rounds up to a multiple of 4 (`align4!`). -/
def align4 (n : Nat) : Nat := ((n + 3) / 4) * 4

/-- Modelled from the spec: rounds a length up to a multiple of 8
(`align8!` of the missing `util.rs`). -/
def align8 (n : Nat) : Nat := ((n + 7) / 8) * 8

/-- Little-endian 4-byte encoding of the low 32 bits of `n`
(Rust `u32::to_le_bytes`). -/
def leBytes4 (n : Nat) : List Nat :=
  [n % 256, n / 2 ^ 8 % 256, n / 2 ^ 16 % 256, n / 2 ^ 24 % 256]

/-- Fuel-driven helper for `countOnes`; the fuel only has to dominate the
number of halving steps, which `n` itself always does. -/
def countOnesAux : Nat → Nat → Nat
  | 0, _ => 0
  | fuel + 1, n => if n = 0 then 0 else n % 2 + countOnesAux fuel (n / 2)

/-- Population count of a natural number, embedding the Rust
`usize::count_ones`. -/
def countOnes (n : Nat) : Nat := countOnesAux n n

/-- Fuel-driven helper for `natSize`. -/
def natSizeAux : Nat → Nat → Nat
  | 0, _ => 0
  | fuel + 1, n => if n = 0 then 0 else natSizeAux fuel (n / 2) + 1

/-- Number of binary digits of `n` (position of the highest set bit plus
one); `natSize 0 = 0`. -/
def natSize (n : Nat) : Nat := natSizeAux n n

/-- The Rust `(x as u32).leading_zeros()`: 32 minus the bit length of the low
32 bits. -/
def leadingZeros32 (n : Nat) : Nat := 32 - natSize (n % U32)

/-- `listStartsWith p l` is true when `p` is an initial run of `l`. -/
def listStartsWith : List Char → List Char → Bool
  | [], _ => true
  | _ :: _, [] => false
  | c :: cs, d :: ds => c == d && listStartsWith cs ds

/-- `listHasSub hay needle` is true when `needle` occurs contiguously
inside `hay`. -/
def listHasSub : List Char → List Char → Bool
  | [], needle => needle.isEmpty
  | c :: cs, needle => listStartsWith needle (c :: cs) || listHasSub cs needle

/-- Substring test on strings, embedding the Rust `str::contains` /
`str::find(..).is_some()`. -/
def strHasSub (s pat : String) : Bool := listHasSub s.toList pat.toList

/-- ELF constants used by the source (values of the `elf` crate). -/
def PT_LOAD : Nat := 1

def PF_W : Nat := 2

def PF_R : Nat := 4

def SHF_WRITE : Nat := 1

def SHF_ALLOC : Nat := 2

def SHF_EXECINSTR : Nat := 4

def SHT_PROGBITS : Nat := 1

/-- One ELF section: the fields of `section.shdr` used by the source plus
the raw `section.data` bytes. -/
structure ElfSection where
  name : String
  shtype : Nat
  flags : Nat
  addr : Nat
  offset : Nat
  size : Nat
  data : List Nat
deriving Repr, DecidableEq

/-- One ELF program header (`segment.progtype`, `segment.flags.0`,
`segment.memsz`). -/
structure ProgramHeader where
  progtype : Nat
  flags : Nat
  memsz : Nat
deriving Repr, DecidableEq

/-- The ELF input of `elf_to_tbf`: entry address, section list, program
header list. -/
structure ElfFile where
  entry : Nat
  sections : List ElfSection
  phdrs : List ProgramHeader
deriving Repr, DecidableEq

/-- Indexing of a list from a starting position, embedding
`iter().enumerate()` over the sections. -/
def enumIdx : Nat → List ElfSection → List (Nat × ElfSection)
  | _, [] => []
  | i, s :: rest => (i, s) :: enumIdx (i + 1) rest

/-- One step of the stable insertion sort on `(index, section)` pairs keyed
by `section.offset`: the new element (which originates earlier in the
input) is placed before every element whose key is not strictly smaller. -/
def insertSec (x : Nat × ElfSection) : List (Nat × ElfSection) → List (Nat × ElfSection)
  | [] => [x]
  | y :: ys => if y.2.offset < x.2.offset then y :: insertSec x ys else x :: y :: ys

/-- Stable sort of the `(index, section)` pairs by file offset, embedding
`sections_sort.sort_by_key(|s| s.1)` (the Rust `sort_by_key` is stable). -/
def sortSecs : List (Nat × ElfSection) → List (Nat × ElfSection)
  | [] => []
  | x :: xs => insertSec x (sortSecs xs)

/-- The sections of the input in final layout order: sorted ascending by
file offset, ties broken by original position. -/
def sectionsSorted (secs : List ElfSection) : List ElfSection :=
  (sortSecs (enumIdx 0 secs)).map Prod.snd

/-- First loadable segment whose flags are exactly readable+writeable gives
the base RAM requirement (`memsz as u32`); none gives 0. -/
def baseRamSize (phdrs : List ProgramHeader) : Nat :=
  match phdrs.find? (fun seg => seg.progtype == PT_LOAD && seg.flags == PF_W + PF_R) with
  | some seg => seg.memsz % U32
  | none => 0

/-- `minimum_ram_size` after the stack/heap additions, with the `u32`
wrap-around of the additions in the source. -/
def minimumRamSize (phdrs : List ProgramHeader) (stack_len app_heap_len kernel_heap_len : Nat) : Nat :=
  (baseRamSize phdrs + align8 stack_len + align4 app_heap_len + align4 kernel_heap_len) % U32

/-- A section counts as a writeable flash region when its name contains
".wfr" and its size is positive. -/
def isWfr (s : ElfSection) : Bool :=
  strHasSub s.name ".wfr" && decide (0 < s.size)

/-- A section is emitted content when its flags intersect
writeable/executable/allocated, its type is `PROGBITS`, and its size is
positive. -/
def isContent (s : ElfSection) : Bool :=
  decide (s.flags &&& (SHF_WRITE + SHF_EXECINSTR + SHF_ALLOC) ≠ 0)
    && s.shtype == SHT_PROGBITS && decide (0 < s.size)

/-- A section is entry-bearing when the ELF entry address lies in its
virtual address range and its name does not contain "debug". -/
def isEntryBearing (entry : Nat) (s : ElfSection) : Bool :=
  decide (s.addr ≤ entry) && decide (entry < s.addr + s.size)
    && !(strHasSub s.name "debug")

/-- Modelled from the spec: the header component (`header.rs`) is missing
from the sources.  The spec says phase 1 yields a serialized-length of
"fixed fields + one slot per flash-region entry + package-name bytes"; the
exact field widths are an external format contract not fixed by the spec,
so we take 32 bytes of fixed fields and an 8-byte slot (a 4-byte offset
and 4-byte size) per writeable flash region. -/
def tbfHeaderLength (wfrCount : Nat) (pkg : String) : Nat :=
  32 + 8 * wfrCount + pkg.length

/-- Modelled from the spec: the mutable header descriptor of `header.rs`,
with the fields the spec lists: minimum-RAM-size, flash-region count,
package name, protected-region padding, init-function offset, total image
size, and the ordered list of (offset, size) flash-region pairs. -/
structure TbfHeader where
  minimum_ram_size : Nat
  writeable_flash_regions_count : Nat
  package_name : String
  protected_size : Nat
  init_fn_offset : Nat
  total_size : Nat
  wfr_values : List (Nat × Nat)
deriving Repr, DecidableEq

/-- Modelled from the spec: `TbfHeader::new()` before `create` fills it. -/
def TbfHeader.new : TbfHeader :=
  { minimum_ram_size := 0, writeable_flash_regions_count := 0, package_name := "",
    protected_size := 0, init_fn_offset := 0, total_size := 0, wfr_values := [] }

/-- Modelled from the spec: phase-1 `create` stores the RAM size, the
flash-region count and the package name and returns the header together
with its serialized length. -/
def TbfHeader.create (_h : TbfHeader) (ram wfrCount : Nat) (pkg : String) : TbfHeader × Nat :=
  ({ minimum_ram_size := ram, writeable_flash_regions_count := wfrCount, package_name := pkg,
     protected_size := 0, init_fn_offset := 0, total_size := 0, wfr_values := [] },
   tbfHeaderLength wfrCount pkg)

/-- Modelled from the spec: records the protected-region padding beyond the
header itself. -/
def TbfHeader.set_protected_size (h : TbfHeader) (v : Nat) : TbfHeader :=
  { h with protected_size := v }

/-- Modelled from the spec: records the init-function offset. -/
def TbfHeader.set_init_fn_offset (h : TbfHeader) (v : Nat) : TbfHeader :=
  { h with init_fn_offset := v }

/-- Modelled from the spec: records the total image size. -/
def TbfHeader.set_total_size (h : TbfHeader) (v : Nat) : TbfHeader :=
  { h with total_size := v }

/-- Modelled from the spec: appends one (offset, size) writeable flash
region pair, in call order. -/
def TbfHeader.set_writeable_flash_region_values (h : TbfHeader) (off sz : Nat) : TbfHeader :=
  { h with wfr_values := h.wfr_values ++ [(off, sz)] }

/-- Modelled from the spec: `generate` serializes the populated descriptor
into exactly its serialized-length bytes.  The exact on-disk layout is an
external compatibility contract not fixed by the spec, so we serialize the
numeric fields little-endian followed by the flash-region pairs and the
package-name bytes, padded with zeros to the serialized length. -/
def TbfHeader.generate (h : TbfHeader) : List Nat :=
  let raw := leBytes4 h.total_size ++ leBytes4 h.init_fn_offset ++
    leBytes4 h.protected_size ++ leBytes4 h.minimum_ram_size ++
    h.wfr_values.flatMap (fun p => leBytes4 p.1 ++ leBytes4 p.2) ++
    (h.package_name.toList.map Char.toNat)
  let hl := tbfHeaderLength h.writeable_flash_regions_count h.package_name
  (raw ++ List.replicate hl 0).take hl

/-- The failure modes of `elf_to_tbf`: the explicit `io::Error` for a too
small protected region, and the `panic!` on a duplicate entry point. -/
inductive TbfError where
  | protectedTooSmall (given headerLen : Nat)
  | duplicateEntry (name : String)
deriving Repr, DecidableEq

/-- The mutable state threaded through the section layout loop of the
source: the running `binary_index`, the computed `init_fn_offset`, the
`entry_point_found` flag, the content buffer `binary`, and the
(offset, size) pairs passed to `set_writeable_flash_region_values` in call
order. -/
structure LayoutState where
  binary_index : Nat
  init_fn_offset : Nat
  entry_point_found : Bool
  binary : List Nat
  wfrs : List (Nat × Nat)
deriving Repr, DecidableEq

/-- The entry-point part of one loop iteration: on an entry-bearing section
either record the init offset (`(entry - addr) as u32 +
(binary_index - header_length) as u32`) or fail on a duplicate. -/
def entryStep (entry header_length : Nat) (s : ElfSection) (st : LayoutState) :
    Except TbfError LayoutState :=
  if isEntryBearing entry s then
    if st.entry_point_found then .error (.duplicateEntry s.name)
    else .ok { st with
               entry_point_found := true,
               init_fn_offset :=
                 ((entry - s.addr) % U32 + (st.binary_index - header_length) % U32) % U32 }
  else .ok st

/-- The content part of one loop iteration: append the bytes of an emitted
content section, record it in the header when it is a writeable flash
region (`binary_index as u32`, `size as u32`), and advance `binary_index`
by the section size. -/
def contentStep (s : ElfSection) (st : LayoutState) : LayoutState :=
  if isContent s then
    { st with
      binary := st.binary ++ s.data,
      wfrs := if isWfr s then st.wfrs ++ [(st.binary_index % U32, s.size % U32)] else st.wfrs,
      binary_index := st.binary_index + s.size }
  else st

/-- One full iteration of the layout loop over a section. -/
def stepSection (entry header_length : Nat) (s : ElfSection) (st : LayoutState) :
    Except TbfError LayoutState :=
  match entryStep entry header_length s st with
  | .error e => .error e
  | .ok st1 => .ok (contentStep s st1)

/-- The layout loop of the source (`for s in &sections_sort`), processing
the sorted sections in order. -/
def layoutLoop (entry header_length : Nat) : List ElfSection → LayoutState → Except TbfError LayoutState
  | [], st => .ok st
  | s :: rest, st =>
    match stepSection entry header_length s st with
    | .error e => .error e
    | .ok st1 => layoutLoop entry header_length rest st1

/-- The value returned by the embedded `elf_to_tbf`: the finalized header
together with the buffers and counters the source computes, and the exact
byte stream it writes to the output. -/
structure TbfResult where
  header : TbfHeader
  header_length : Nat
  protected_region_size : Nat
  binary : List Nat
  relocation_binary : List Nat
  prepad_index : Nat
  post_content_pad : Nat
  output : List Nat
deriving Repr, DecidableEq

/-- The part of `elf_to_tbf` after the protected-region size is settled:
the layout loop, `set_init_fn_offset`, the relocation pass, the
power-of-two padding, `set_total_size`, and the final writes. -/
def finishTbf (input : ElfFile) (sortedSecs : List ElfSection) (rel_sections : List String)
    (hdr : TbfHeader) (header_length protected_region_size : Nat) :
    Except TbfError TbfResult :=
  let st0 : LayoutState :=
    { binary_index := protected_region_size, init_fn_offset := 0, entry_point_found := false,
      binary := List.replicate (protected_region_size - header_length) 0, wfrs := [] }
  match layoutLoop input.entry header_length sortedSecs st0 with
  | .error e => .error e
  | .ok st =>
    let hdr1 := { hdr.set_init_fn_offset st.init_fn_offset with wfr_values := st.wfrs }
    let relocation_binary := rel_sections.flatMap (fun nm =>
      match input.sections.find? (fun t => t.name == ".rel" ++ nm) with
      | some t => t.data
      | none => [])
    let binary_index := st.binary_index + relocation_binary.length + 4
    let post_content_pad :=
      if 1 < countOnes binary_index then
        max (2 ^ (32 - leadingZeros32 binary_index)) 512 - binary_index
      else 0
    let total_size := binary_index + post_content_pad
    let hdr2 := hdr1.set_total_size (total_size % U32)
    .ok { header := hdr2, header_length := header_length,
          protected_region_size := protected_region_size,
          binary := st.binary, relocation_binary := relocation_binary,
          prepad_index := binary_index, post_content_pad := post_content_pad,
          output := hdr2.generate ++ st.binary ++ leBytes4 relocation_binary.length ++
            relocation_binary ++ List.replicate post_content_pad 0 }

/-- The embedded `elf_to_tbf` of `src/main.rs`.  The `output: &mut W`
writer is modelled by the byte list in the result, and `verbose` (printing
only) is dropped. -/
def elf_to_tbf (input : ElfFile) (package_name : Option String)
    (stack_len app_heap_len kernel_heap_len : Nat)
    (protected_region_size_arg : Option Nat) : Except TbfError TbfResult :=
  let pkg := package_name.getD ""
  let sortedSecs := sectionsSorted input.sections
  let minimum_ram_size := minimumRamSize input.phdrs stack_len app_heap_len kernel_heap_len
  let rel_sections :=
    (sortedSecs.filter (fun s => s.flags == SHF_WRITE + SHF_ALLOC)).map (fun s => s.name)
  let writeable_flash_regions_count := (sortedSecs.filter (fun s => isWfr s)).length
  let created := TbfHeader.new.create minimum_ram_size writeable_flash_regions_count pkg
  let tbfheader := created.1
  let header_length := created.2
  match protected_region_size_arg with
  | some fixed =>
    if fixed < header_length then
      .error (.protectedTooSmall fixed header_length)
    else
      finishTbf input sortedSecs rel_sections
        (tbfheader.set_protected_size (fixed - header_length)) header_length fixed
  | none =>
    finishTbf input sortedSecs rel_sections tbfheader header_length header_length

/-! ### Specification-level descriptions of the layout loop -/

/-- Sum of the sizes of the emitted content sections of a list. -/
def contentSizeSum (l : List ElfSection) : Nat :=
  ((l.filter (fun s => isContent s)).map (fun s => s.size)).sum

/-- Concatenated raw bytes of the emitted content sections of a list. -/
def contentBytes (l : List ElfSection) : List Nat :=
  (l.filter (fun s => isContent s)).flatMap (fun s => s.data)

/-- The (offset, size) pairs recorded for writeable flash regions when the
layout starts at image offset `bi`. -/
def wfrPairs (bi : Nat) : List ElfSection → List (Nat × Nat)
  | [] => []
  | s :: rest =>
    if isContent s then
      (if isWfr s then [(bi % U32, s.size % U32)] else []) ++ wfrPairs (bi + s.size) rest
    else wfrPairs bi rest

/-- The order produced by the stable sort: strictly ascending file offset,
or equal offsets with ascending original index. -/
def secLt (a b : Nat × ElfSection) : Prop :=
  a.2.offset < b.2.offset ∨ (a.2.offset = b.2.offset ∧ a.1 < b.1)

/-! ### Concrete example inputs used by witnesses and counterexamples -/

/-- An ELF input with no sections and no segments. -/
def exEmpty : ElfFile := { entry := 0, sections := [], phdrs := [] }

/-- An ELF input whose only feature is one loadable read+write segment of
256 bytes. -/
def exRam : ElfFile :=
  { entry := 0, sections := [],
    phdrs := [{ progtype := 1, flags := 6, memsz := 256 }] }

/-- A writeable flash region section of 4 bytes. -/
def secWfr : ElfSection :=
  { name := ".wfrdata", shtype := 1, flags := 3, addr := 8192, offset := 0,
    size := 4, data := [1, 2, 3, 4] }

/-- An ELF input with one writeable-flash-region content section. -/
def exWfr : ElfFile := { entry := 0, sections := [secWfr], phdrs := [] }

/-- An executable text section of 64 bytes at virtual address 0x2000. -/
def secText : ElfSection :=
  { name := ".text", shtype := 1, flags := 6, addr := 8192, offset := 100,
    size := 64, data := List.replicate 64 7 }

/-- A writeable+allocated data section of 40 bytes, earlier in the file
than `secText`. -/
def secData : ElfSection :=
  { name := ".data", shtype := 1, flags := 3, addr := 16384, offset := 10,
    size := 40, data := List.replicate 40 9 }

/-- The relocation companion of `secData`. -/
def secRelData : ElfSection :=
  { name := ".rel.data", shtype := 9, flags := 0, addr := 0, offset := 300,
    size := 8, data := [1, 2, 3, 4, 5, 6, 7, 8] }

/-- An ELF input exercising content layout, entry location and relocation
packing; the entry address 0x2010 lies in `secText`. -/
def exFull : ElfFile :=
  { entry := 8208, sections := [secText, secData, secRelData], phdrs := [] }

/-- An ELF input in which two sections contain the entry address. -/
def exDup : ElfFile :=
  { entry := 8200,
    sections := [secText, { secText with name := ".text2", offset := 200 }],
    phdrs := [] }

/-! ### Arithmetic facts about `countOnes` and `natSize` -/

lemma countOnesAux_zero (g : Nat) : countOnesAux g 0 = 0 := by
  cases g <;> simp [countOnesAux]

lemma countOnesAux_congr : ∀ f g n, n ≤ f → n ≤ g → countOnesAux f n = countOnesAux g n := by
  intro f
  induction f with
  | zero =>
    intro g n hf _
    have hn : n = 0 := by omega
    subst hn
    rw [countOnesAux_zero, countOnesAux_zero]
  | succ f ih =>
    intro g n hf hg
    cases g with
    | zero =>
      have hn : n = 0 := by omega
      subst hn
      rw [countOnesAux_zero, countOnesAux_zero]
    | succ g =>
      by_cases hn : n = 0
      · subst hn; simp [countOnesAux]
      · have hlt : n / 2 < n := Nat.div_lt_self (by omega) (by omega)
        simp only [countOnesAux, if_neg hn]
        rw [ih g (n / 2) (by omega) (by omega)]

lemma countOnes_step (n : Nat) (hn : n ≠ 0) : countOnes n = n % 2 + countOnes (n / 2) := by
  cases n with
  | zero => exact absurd rfl hn
  | succ m =>
    have hlt : (m + 1) / 2 < m + 1 := Nat.div_lt_self (by omega) (by omega)
    show countOnesAux (m + 1) (m + 1) = _
    simp only [countOnesAux, if_neg (by omega : ¬ m + 1 = 0)]
    rw [countOnesAux_congr m ((m + 1) / 2) ((m + 1) / 2) (by omega) (by omega)]
    rfl

lemma countOnes_pos (n : Nat) (hn : n ≠ 0) : 0 < countOnes n := by
  induction n using Nat.strong_induction_on with
  | _ n ih =>
    rw [countOnes_step n hn]
    by_cases h2 : n % 2 = 0
    · have hhalf : n / 2 ≠ 0 := by omega
      have := ih (n / 2) (Nat.div_lt_self (by omega) (by omega)) hhalf
      omega
    · omega

lemma countOnes_eq_zero_iff (n : Nat) : countOnes n = 0 ↔ n = 0 := by
  constructor
  · intro h
    by_contra hn
    exact absurd h (by have := countOnes_pos n hn; omega)
  · intro h; subst h; rfl

lemma exists_pow_of_countOnes_le_one (n : Nat) (hn : n ≠ 0) (h1 : countOnes n ≤ 1) :
    ∃ k, n = 2 ^ k := by
  induction n using Nat.strong_induction_on with
  | _ n ih =>
    rw [countOnes_step n hn] at h1
    by_cases h2 : n % 2 = 0
    · have hhalf : n / 2 ≠ 0 := by omega
      obtain ⟨k, hk⟩ := ih (n / 2) (Nat.div_lt_self (by omega) (by omega)) hhalf (by omega)
      refine ⟨k + 1, ?_⟩
      have : n = 2 * (n / 2) := by omega
      rw [this, hk, pow_succ]
      ring
    · have hz : countOnes (n / 2) = 0 := by omega
      have : n / 2 = 0 := (countOnes_eq_zero_iff _).mp hz
      refine ⟨0, by omega⟩

lemma countOnes_two_pow (k : Nat) : countOnes (2 ^ k) = 1 := by
  induction k with
  | zero => rfl
  | succ k ih =>
    rw [countOnes_step (2 ^ (k + 1)) (by positivity)]
    have h2 : 2 ^ (k + 1) = 2 * 2 ^ k := by rw [pow_succ]; ring
    have hmod : 2 ^ (k + 1) % 2 = 0 := by omega
    have hdiv : 2 ^ (k + 1) / 2 = 2 ^ k := by omega
    rw [hmod, hdiv, ih]

lemma natSize_step (n : Nat) (hn : n ≠ 0) : natSize n = natSize (n / 2) + 1 := by
  cases n with
  | zero => exact absurd rfl hn
  | succ m =>
    have hlt : (m + 1) / 2 < m + 1 := Nat.div_lt_self (by omega) (by omega)
    show natSizeAux (m + 1) (m + 1) = _
    simp only [natSizeAux, if_neg (by omega : ¬ m + 1 = 0)]
    have hcg : ∀ f g n, n ≤ f → n ≤ g → natSizeAux f n = natSizeAux g n := by
      intro f
      induction f with
      | zero =>
        intro g n hf _
        have hn0 : n = 0 := by omega
        subst hn0
        cases g <;> simp [natSizeAux]
      | succ f ihf =>
        intro g n hf hg
        cases g with
        | zero =>
          have hn0 : n = 0 := by omega
          subst hn0
          simp [natSizeAux]
        | succ g =>
          by_cases hn0 : n = 0
          · subst hn0; simp [natSizeAux]
          · have hlt2 : n / 2 < n := Nat.div_lt_self (by omega) (by omega)
            simp only [natSizeAux, if_neg hn0]
            rw [ihf g (n / 2) (by omega) (by omega)]
    rw [hcg m ((m + 1) / 2) ((m + 1) / 2) (by omega) (by omega)]
    rfl

lemma lt_two_pow_natSize (n : Nat) : n < 2 ^ natSize n := by
  induction n using Nat.strong_induction_on with
  | _ n ih =>
    by_cases hn : n = 0
    · subst hn; simp [natSize, natSizeAux]
    · rw [natSize_step n hn]
      have := ih (n / 2) (Nat.div_lt_self (by omega) (by omega))
      have h2 : 2 ^ (natSize (n / 2) + 1) = 2 * 2 ^ natSize (n / 2) := by rw [pow_succ]; ring
      omega

lemma natSize_le (k : Nat) : ∀ n, n < 2 ^ k → natSize n ≤ k := by
  induction k with
  | zero =>
    intro n h
    have : n = 0 := by simpa using h
    subst this
    simp [natSize, natSizeAux]
  | succ k ih =>
    intro n h
    by_cases hn : n = 0
    · subst hn; simp [natSize, natSizeAux]
    · rw [natSize_step n hn]
      have h2 : 2 ^ (k + 1) = 2 * 2 ^ k := by rw [pow_succ]; ring
      have : n / 2 < 2 ^ k := by omega
      have := ih (n / 2) this
      omega

/-! ### Facts about the stable sort and the enumeration -/

lemma insertSec_perm (x : Nat × ElfSection) (l : List (Nat × ElfSection)) :
    List.Perm (insertSec x l) (x :: l) := by
  induction l with
  | nil => exact List.Perm.refl _
  | cons y ys ih =>
    simp only [insertSec]
    by_cases h : y.2.offset < x.2.offset
    · rw [if_pos h]
      exact List.Perm.trans (List.Perm.cons y ih) (List.Perm.swap x y ys)
    · rw [if_neg h]

lemma sortSecs_perm (l : List (Nat × ElfSection)) : List.Perm (sortSecs l) l := by
  induction l with
  | nil => exact List.Perm.refl _
  | cons x xs ih =>
    simp only [sortSecs]
    exact List.Perm.trans (insertSec_perm x (sortSecs xs)) (List.Perm.cons x ih)

lemma mem_insertSec {z x : Nat × ElfSection} {l : List (Nat × ElfSection)} :
    z ∈ insertSec x l ↔ z = x ∨ z ∈ l := by
  constructor
  · intro h
    have := (insertSec_perm x l).mem_iff.mp h
    simpa using this
  · intro h
    apply (insertSec_perm x l).mem_iff.mpr
    simpa using h

lemma insertSec_pairwise {x : Nat × ElfSection} {l : List (Nat × ElfSection)}
    (hl : l.Pairwise secLt) (hx : ∀ y ∈ l, x.1 < y.1) :
    (insertSec x l).Pairwise secLt := by
  induction l with
  | nil => simp [insertSec]
  | cons y ys ih =>
    simp only [insertSec]
    rcases List.pairwise_cons.mp hl with ⟨hy, hys⟩
    by_cases h : y.2.offset < x.2.offset
    · rw [if_pos h]
      refine List.pairwise_cons.mpr ⟨?_, ih hys (fun z hz => hx z (by simp [hz]))⟩
      intro z hz
      rcases mem_insertSec.mp hz with hzx | hzys
      · subst hzx; exact Or.inl h
      · exact hy z hzys
    · rw [if_neg h]
      refine List.pairwise_cons.mpr ⟨?_, hl⟩
      intro z hz
      rcases List.mem_cons.mp hz with hzy | hzys
      · subst hzy
        rcases Nat.lt_or_ge x.2.offset z.2.offset with hlt | hge
        · exact Or.inl hlt
        · exact Or.inr ⟨by omega, hx z (by simp)⟩
      · have hyz := hy z hzys
        have hxy : x.2.offset ≤ y.2.offset := by omega
        rcases hyz with hlt | ⟨heq, _⟩
        · rcases Nat.lt_or_ge x.2.offset z.2.offset with h1 | h1
          · exact Or.inl h1
          · exact Or.inr ⟨by omega, hx z (by simp [hzys])⟩
        · rcases Nat.lt_or_ge x.2.offset z.2.offset with h1 | h1
          · exact Or.inl h1
          · exact Or.inr ⟨by omega, hx z (by simp [hzys])⟩

lemma sortSecs_pairwise {l : List (Nat × ElfSection)}
    (hl : l.Pairwise (fun a b => a.1 < b.1)) : (sortSecs l).Pairwise secLt := by
  induction l with
  | nil => simp [sortSecs]
  | cons x xs ih =>
    rcases List.pairwise_cons.mp hl with ⟨hx, hxs⟩
    simp only [sortSecs]
    refine insertSec_pairwise (ih hxs) ?_
    intro y hy
    exact hx y ((sortSecs_perm xs).mem_iff.mp hy)

lemma enumIdx_mem_ge {i : Nat} {l : List ElfSection} :
    ∀ z ∈ enumIdx i l, i ≤ z.1 := by
  induction l generalizing i with
  | nil => intro z hz; simp [enumIdx] at hz
  | cons s rest ih =>
    intro z hz
    simp only [enumIdx, List.mem_cons] at hz
    rcases hz with hz | hz
    · subst hz; omega
    · have := ih z hz; omega

lemma enumIdx_pairwise (i : Nat) (l : List ElfSection) :
    (enumIdx i l).Pairwise (fun a b => a.1 < b.1) := by
  induction l generalizing i with
  | nil => simp [enumIdx]
  | cons s rest ih =>
    simp only [enumIdx]
    refine List.pairwise_cons.mpr ⟨?_, ih (i + 1)⟩
    intro z hz
    have := enumIdx_mem_ge z hz
    omega

lemma enumIdx_map_snd (i : Nat) (l : List ElfSection) :
    (enumIdx i l).map Prod.snd = l := by
  induction l generalizing i with
  | nil => rfl
  | cons s rest ih => simp [enumIdx, ih]

lemma sectionsSorted_perm (l : List ElfSection) : List.Perm (sectionsSorted l) l := by
  have h1 : List.Perm ((sortSecs (enumIdx 0 l)).map Prod.snd) ((enumIdx 0 l).map Prod.snd) :=
    (sortSecs_perm (enumIdx 0 l)).map Prod.snd
  rw [enumIdx_map_snd] at h1
  exact h1

lemma contentStep_init (s : ElfSection) (st : LayoutState) :
    (contentStep s st).init_fn_offset = st.init_fn_offset := by
  unfold contentStep; split <;> rfl

lemma contentStep_found (s : ElfSection) (st : LayoutState) :
    (contentStep s st).entry_point_found = st.entry_point_found := by
  unfold contentStep; split <;> rfl

lemma contentStep_binary (s : ElfSection) (st : LayoutState) :
    (contentStep s st).binary = st.binary ++ (if isContent s then s.data else []) := by
  unfold contentStep; split <;> simp_all

lemma contentStep_index (s : ElfSection) (st : LayoutState) :
    (contentStep s st).binary_index = st.binary_index + (if isContent s then s.size else 0) := by
  unfold contentStep; split <;> simp_all

lemma contentStep_wfrs (s : ElfSection) (st : LayoutState) :
    (contentStep s st).wfrs = st.wfrs ++
      (if isContent s then
        (if isWfr s then [(st.binary_index % U32, s.size % U32)] else []) else []) := by
  unfold contentStep
  split
  · split <;> simp_all
  · simp_all

lemma entryStep_not_bearing {entry hl : Nat} {s : ElfSection} {st : LayoutState}
    (h : isEntryBearing entry s = false) : entryStep entry hl s st = .ok st := by
  unfold entryStep
  rw [h]
  simp

lemma entryStep_bearing_new {entry hl : Nat} {s : ElfSection} {st : LayoutState}
    (h : isEntryBearing entry s = true) (hf : st.entry_point_found = false) :
    entryStep entry hl s st = .ok { st with
      entry_point_found := true,
      init_fn_offset :=
        ((entry - s.addr) % U32 + (st.binary_index - hl) % U32) % U32 } := by
  unfold entryStep
  rw [h, hf]
  simp

lemma entryStep_bearing_dup {entry hl : Nat} {s : ElfSection} {st : LayoutState}
    (h : isEntryBearing entry s = true) (hf : st.entry_point_found = true) :
    entryStep entry hl s st = .error (.duplicateEntry s.name) := by
  unfold entryStep
  rw [h, hf]
  simp

/-! ### The layout loop: state characterization -/

lemma layoutLoop_ok_state {entry hl : Nat} :
    ∀ (l : List ElfSection) (st r : LayoutState),
      layoutLoop entry hl l st = .ok r →
      r.binary_index = st.binary_index + contentSizeSum l ∧
      r.binary = st.binary ++ contentBytes l ∧
      r.wfrs = st.wfrs ++ wfrPairs st.binary_index l := by
  intro l
  induction l with
  | nil =>
    intro st r h
    simp only [layoutLoop] at h
    cases h
    simp [contentSizeSum, contentBytes, wfrPairs]
  | cons s rest ih =>
    intro st r h
    simp only [layoutLoop, stepSection] at h
    cases hes : entryStep entry hl s st with
    | error e => rw [hes] at h; cases h
    | ok st1 =>
      rw [hes] at h
      simp only at h
      have hst1 : st1.binary_index = st.binary_index ∧ st1.binary = st.binary ∧
          st1.wfrs = st.wfrs := by
        unfold entryStep at hes
        by_cases hb : isEntryBearing entry s
        · rw [if_pos hb] at hes
          by_cases hf : st.entry_point_found
          · rw [if_pos hf] at hes; cases hes
          · rw [if_neg hf] at hes
            cases hes
            exact ⟨rfl, rfl, rfl⟩
        · rw [if_neg hb] at hes
          cases hes
          exact ⟨rfl, rfl, rfl⟩
      obtain ⟨hbi1, hbin1, hwf1⟩ := hst1
      obtain ⟨hbi, hbin, hwf⟩ := ih (contentStep s st1) r h
      refine ⟨?_, ?_, ?_⟩
      · rw [hbi, contentStep_index, hbi1, contentSizeSum, contentSizeSum]
        by_cases hc : isContent s
        · simp [hc, List.filter_cons]
          omega
        · simp [hc, List.filter_cons]
      · rw [hbin, contentStep_binary, hbin1, contentBytes, contentBytes]
        by_cases hc : isContent s <;> simp [hc, List.filter_cons]
      · rw [hwf, contentStep_wfrs, contentStep_index, hwf1, hbi1]
        show _ = st.wfrs ++ wfrPairs st.binary_index (s :: rest)
        rw [wfrPairs]
        by_cases hc : isContent s
        · simp only [hc, if_pos, if_true, List.append_assoc]
        · simp [hc]

/-! ### The layout loop: entry-point behaviour -/

lemma layoutLoop_append (entry hl : Nat) (l1 l2 : List ElfSection) (st : LayoutState) :
    layoutLoop entry hl (l1 ++ l2) st =
      match layoutLoop entry hl l1 st with
      | .error e => .error e
      | .ok st1 => layoutLoop entry hl l2 st1 := by
  induction l1 generalizing st with
  | nil => simp [layoutLoop]
  | cons s rest ih =>
    simp only [List.cons_append, layoutLoop]
    cases stepSection entry hl s st with
    | error e => simp
    | ok st1 => simp only []; exact ih st1

lemma layoutLoop_no_entry (entry hl : Nat) (l : List ElfSection) (st : LayoutState)
    (h : ∀ t ∈ l, isEntryBearing entry t = false) :
    ∃ r, layoutLoop entry hl l st = .ok r ∧
      r.init_fn_offset = st.init_fn_offset ∧
      r.entry_point_found = st.entry_point_found := by
  induction l generalizing st with
  | nil => exact ⟨st, rfl, rfl, rfl⟩
  | cons s rest ih =>
    have hs : isEntryBearing entry s = false := h s (by simp)
    have hrest : ∀ t ∈ rest, isEntryBearing entry t = false := fun t ht => h t (by simp [ht])
    obtain ⟨r, hr, hinit, hfound⟩ := ih (contentStep s st) hrest
    refine ⟨r, ?_, ?_, ?_⟩
    · simp only [layoutLoop, stepSection, entryStep_not_bearing hs]
      exact hr
    · rw [hinit, contentStep_init]
    · rw [hfound, contentStep_found]

lemma layoutLoop_dup_of_found (entry hl : Nat) (l : List ElfSection) (st : LayoutState)
    (hf : st.entry_point_found = true)
    (h : ∃ t ∈ l, isEntryBearing entry t = true) :
    ∃ nm, layoutLoop entry hl l st = .error (.duplicateEntry nm) := by
  induction l generalizing st with
  | nil => simp at h
  | cons s rest ih =>
    by_cases hs : isEntryBearing entry s = true
    · refine ⟨s.name, ?_⟩
      simp only [layoutLoop, stepSection, entryStep_bearing_dup hs hf]
    · obtain ⟨t, ht, hbt⟩ := h
      rcases List.mem_cons.mp ht with hts | htr
      · subst hts; exact absurd hbt hs
      · have hs' : isEntryBearing entry s = false := by
          cases hb : isEntryBearing entry s
          · rfl
          · exact absurd hb hs
        obtain ⟨nm, hnm⟩ := ih (contentStep s st)
          (by rw [contentStep_found]; exact hf) ⟨t, htr, hbt⟩
        refine ⟨nm, ?_⟩
        simp only [layoutLoop, stepSection, entryStep_not_bearing hs']
        exact hnm

lemma layoutLoop_dup_of_two (entry hl : Nat) (l : List ElfSection) (st : LayoutState)
    (hf : st.entry_point_found = false)
    (h2 : 2 ≤ l.countP (fun t => isEntryBearing entry t)) :
    ∃ nm, layoutLoop entry hl l st = .error (.duplicateEntry nm) := by
  induction l generalizing st with
  | nil => rw [List.countP_nil] at h2; omega
  | cons s rest ih =>
    rw [List.countP_cons] at h2
    by_cases hs : isEntryBearing entry s = true
    · have hone : 1 ≤ rest.countP (fun t => isEntryBearing entry t) := by
        simp only [hs, if_true] at h2; omega
      have hmem : ∃ t ∈ rest, isEntryBearing entry t = true := by
        by_contra hno
        push_neg at hno
        have : rest.countP (fun t => isEntryBearing entry t) = 0 := by
          rw [List.countP_eq_zero]
          intro t ht
          have := hno t ht
          simpa using this
        omega
      have hstep := @entryStep_bearing_new entry hl s st hs hf
      obtain ⟨nm, hnm⟩ := layoutLoop_dup_of_found entry hl rest (contentStep s
        { st with
          entry_point_found := true,
          init_fn_offset :=
            ((entry - s.addr) % U32 + (st.binary_index - hl) % U32) % U32 })
        (by rw [contentStep_found]) hmem
      refine ⟨nm, ?_⟩
      simp only [layoutLoop, stepSection, hstep]
      exact hnm
    · have hs' : isEntryBearing entry s = false := by
        cases hb : isEntryBearing entry s
        · rfl
        · exact absurd hb hs
      rw [hs'] at h2
      simp at h2
      obtain ⟨nm, hnm⟩ := ih (contentStep s st)
        (by rw [contentStep_found]; exact hf) (by omega)
      refine ⟨nm, ?_⟩
      simp only [layoutLoop, stepSection, entryStep_not_bearing hs']
      exact hnm

lemma layoutLoop_single_entry (entry hl : Nat) (pre post : List ElfSection) (s : ElfSection)
    (st : LayoutState)
    (hpre : ∀ t ∈ pre, isEntryBearing entry t = false)
    (hpost : ∀ t ∈ post, isEntryBearing entry t = false)
    (hs : isEntryBearing entry s = true) (hf : st.entry_point_found = false) :
    ∃ r, layoutLoop entry hl (pre ++ s :: post) st = .ok r ∧
      r.init_fn_offset =
        ((entry - s.addr) % U32 + (st.binary_index + contentSizeSum pre - hl) % U32) % U32 := by
  obtain ⟨r1, hr1, hinit1, hfound1⟩ := layoutLoop_no_entry entry hl pre st hpre
  have hbi1 : r1.binary_index = st.binary_index + contentSizeSum pre :=
    (layoutLoop_ok_state pre st r1 hr1).1
  have hf1 : r1.entry_point_found = false := by rw [hfound1]; exact hf
  obtain ⟨r, hr, hinit, _⟩ := layoutLoop_no_entry entry hl post (contentStep s
    { r1 with
      entry_point_found := true,
      init_fn_offset :=
        ((entry - s.addr) % U32 + (r1.binary_index - hl) % U32) % U32 }) hpost
  refine ⟨r, ?_, ?_⟩
  · rw [layoutLoop_append, hr1]
    simp only [layoutLoop, stepSection, entryStep_bearing_new hs hf1]
    exact hr
  · rw [hinit, contentStep_init]
    simp only []
    rw [hbi1]

/-! ### Characterizing a successful run of `elf_to_tbf` -/

lemma generate_length (h : TbfHeader) :
    h.generate.length = tbfHeaderLength h.writeable_flash_regions_count h.package_name := by
  simp [TbfHeader.generate]
  omega

lemma elf_to_tbf_ok_cases (input : ElfFile) (pkgOpt : Option String) (sl al kl : Nat)
    (parg : Option Nat) (r : TbfResult)
    (hok : elf_to_tbf input pkgOpt sl al kl parg = .ok r) :
    r.header_length =
      tbfHeaderLength ((sectionsSorted input.sections).filter (fun s => isWfr s)).length
        (pkgOpt.getD "") ∧
    r.protected_region_size = parg.getD r.header_length ∧
    r.header_length ≤ r.protected_region_size ∧
    r.header.package_name = pkgOpt.getD "" ∧
    r.header.writeable_flash_regions_count =
      ((sectionsSorted input.sections).filter (fun s => isWfr s)).length ∧
    r.header.minimum_ram_size = minimumRamSize input.phdrs sl al kl ∧
    r.relocation_binary =
      (((sectionsSorted input.sections).filter
          (fun s => s.flags == SHF_WRITE + SHF_ALLOC)).map (fun s => s.name)).flatMap
        (fun nm =>
          match input.sections.find? (fun t => t.name == ".rel" ++ nm) with
          | some t => t.data
          | none => []) ∧
    r.post_content_pad =
      (if 1 < countOnes r.prepad_index then
        max (2 ^ (32 - leadingZeros32 r.prepad_index)) 512 - r.prepad_index
      else 0) ∧
    r.header.total_size = (r.prepad_index + r.post_content_pad) % U32 ∧
    r.output = r.header.generate ++ r.binary ++ leBytes4 r.relocation_binary.length ++
      r.relocation_binary ++ List.replicate r.post_content_pad 0 ∧
    ∃ st, layoutLoop input.entry r.header_length (sectionsSorted input.sections)
        { binary_index := r.protected_region_size, init_fn_offset := 0,
          entry_point_found := false,
          binary := List.replicate (r.protected_region_size - r.header_length) 0,
          wfrs := [] } = .ok st ∧
      r.binary = st.binary ∧ r.header.init_fn_offset = st.init_fn_offset ∧
      r.header.wfr_values = st.wfrs ∧
      r.prepad_index = st.binary_index + r.relocation_binary.length + 4 := by
  unfold elf_to_tbf at hok
  cases parg with
  | none =>
    unfold finishTbf at hok
    simp only [TbfHeader.new, TbfHeader.create] at hok
    split at hok
    · cases hok
    · rename_i st heq
      injection hok with hok
      subst hok
      exact ⟨rfl, rfl, le_refl _, rfl, rfl, rfl, rfl, rfl, rfl, rfl, st, heq, rfl, rfl, rfl, rfl⟩
  | some v =>
    unfold finishTbf at hok
    simp only [TbfHeader.new, TbfHeader.create] at hok
    split at hok
    · cases hok
    · rename_i hge
      split at hok
      · cases hok
      · rename_i st heq
        injection hok with hok
        subst hok
        exact ⟨rfl, rfl, Nat.le_of_not_lt hge, rfl, rfl, rfl, rfl, rfl, rfl, rfl, st, heq,
          rfl, rfl, rfl, rfl⟩

/-! ### Arithmetic consequences for the total size -/

lemma mod_add_mod_U32 {a b : Nat} (h : a + b < U32) :
    (a % U32 + b % U32) % U32 = a + b := by
  have ha : a % U32 = a := Nat.mod_eq_of_lt (by omega)
  have hb : b % U32 = b := Nat.mod_eq_of_lt (by omega)
  rw [ha, hb]
  exact Nat.mod_eq_of_lt h

lemma max_pow_two (a b : Nat) : max (2 ^ a) (2 ^ b) = 2 ^ max a b := by
  rcases le_total a b with h | h
  · rw [max_eq_right (Nat.pow_le_pow_right (by omega) h), max_eq_right h]
  · rw [max_eq_left (Nat.pow_le_pow_right (by omega) h), max_eq_left h]

/-- The padded total produced by the power-of-two padding rule is a power
of two, and stays below `2 ^ 32` when the pre-pad length is at most
`2 ^ 31`. -/
lemma padded_total_spec (bi : Nat) (h0 : 0 < bi) (h31 : bi ≤ 2 ^ 31) :
    (∃ k, bi + (if 1 < countOnes bi then
      max (2 ^ (32 - leadingZeros32 bi)) 512 - bi else 0) = 2 ^ k) ∧
    bi + (if 1 < countOnes bi then
      max (2 ^ (32 - leadingZeros32 bi)) 512 - bi else 0) ≤ 2 ^ 31 := by
  by_cases hc : 1 < countOnes bi
  · have hne : bi ≠ 2 ^ 31 := by
      intro hb
      rw [hb, countOnes_two_pow] at hc
      omega
    have hlt31 : bi < 2 ^ 31 := by omega
    have hltU : bi < U32 := by
      have : (2 : Nat) ^ 31 < 2 ^ 32 := by norm_num
      show bi < 2 ^ 32
      omega
    have hmod : bi % U32 = bi := Nat.mod_eq_of_lt hltU
    have hsz : natSize bi ≤ 31 := natSize_le 31 bi hlt31
    have hszle : natSize bi ≤ 32 := by omega
    have hlz : 32 - leadingZeros32 bi = natSize bi := by
      rw [leadingZeros32, hmod]
      omega
    have hbi_lt : bi < 2 ^ natSize bi := lt_two_pow_natSize bi
    have hmax : max (2 ^ natSize bi) 512 = 2 ^ max (natSize bi) 9 := by
      have : (512 : Nat) = 2 ^ 9 := by norm_num
      rw [this, max_pow_two]
    have hble : bi ≤ max (2 ^ natSize bi) 512 := le_trans (le_of_lt hbi_lt) (le_max_left _ _)
    rw [if_pos hc, hlz]
    constructor
    · refine ⟨max (natSize bi) 9, ?_⟩
      omega
    · have hmle : max (natSize bi) 9 ≤ 31 := by omega
      have : (2 : Nat) ^ max (natSize bi) 9 ≤ 2 ^ 31 := Nat.pow_le_pow_right (by omega) hmle
      omega
  · rw [if_neg hc]
    constructor
    · obtain ⟨k, hk⟩ :=
        exists_pow_of_countOnes_le_one bi (by omega) (by omega)
      exact ⟨k, by omega⟩
    · omega

/-- When every emitted content section carries exactly `size` bytes of
data, the emitted bytes of a section list have total length equal to the
sum of the sizes. -/
lemma contentBytes_length (l : List ElfSection)
    (h : ∀ s ∈ l, isContent s = true → s.data.length = s.size) :
    (contentBytes l).length = contentSizeSum l := by
  rw [contentBytes, contentSizeSum, List.length_flatMap]
  congr 1
  apply List.map_congr_left
  intro s hs
  have hmem := (List.mem_filter.mp hs).1
  have hcon := (List.mem_filter.mp hs).2
  exact h s hmem hcon

lemma U32_eq : U32 = 4294967296 := by norm_num [U32]

/-! ### The claims -/

/-- C2: for every segment list, stack size, app-heap size and kernel-heap
size, the minimum RAM size recorded in the header equals (memsz of the
first loadable segment whose flags are exactly readable+writeable, or 0 if
none) + align-up(stack, 8) + align-up(app_heap, 4) + align-up(kernel_heap,
4), in the absence of 32-bit overflow. -/
theorem c2_minimum_ram_size (input : ElfFile) (pkgOpt : Option String)
    (sl al kl : Nat) (parg : Option Nat) (r : TbfResult)
    (hok : elf_to_tbf input pkgOpt sl al kl parg = .ok r)
    (hsmall :
      ((input.phdrs.find?
          (fun seg => seg.progtype == PT_LOAD && seg.flags == PF_W + PF_R)).map
          (fun seg => seg.memsz)).getD 0 +
        ((sl + 7) / 8) * 8 + ((al + 3) / 4) * 4 + ((kl + 3) / 4) * 4 < U32) :
    r.header.minimum_ram_size =
      ((input.phdrs.find?
          (fun seg => seg.progtype == PT_LOAD && seg.flags == PF_W + PF_R)).map
          (fun seg => seg.memsz)).getD 0 +
        ((sl + 7) / 8) * 8 + ((al + 3) / 4) * 4 + ((kl + 3) / 4) * 4 := by
  have h := elf_to_tbf_ok_cases input pkgOpt sl al kl parg r hok
  have hram := h.2.2.2.2.2.1
  have hx : baseRamSize input.phdrs =
      ((input.phdrs.find?
          (fun seg => seg.progtype == PT_LOAD && seg.flags == PF_W + PF_R)).map
          (fun seg => seg.memsz)).getD 0 % U32 := by
    rw [baseRamSize]
    cases input.phdrs.find?
        (fun seg => seg.progtype == PT_LOAD && seg.flags == PF_W + PF_R) <;> rfl
  rw [hram]
  simp only [minimumRamSize, align8, align4]
  rw [hx]
  have hm : ((input.phdrs.find?
      (fun seg => seg.progtype == PT_LOAD && seg.flags == PF_W + PF_R)).map
      (fun seg => seg.memsz)).getD 0 % U32 =
      ((input.phdrs.find?
        (fun seg => seg.progtype == PT_LOAD && seg.flags == PF_W + PF_R)).map
        (fun seg => seg.memsz)).getD 0 := Nat.mod_eq_of_lt (by omega)
  rw [hm]
  exact Nat.mod_eq_of_lt hsmall

/-- C2 witness: the worked example of the spec (segment memsz 256, stack 2048,
heaps 1024 each) yields minimum RAM size 4352. -/
theorem c2_minimum_ram_size_witness :
    (elf_to_tbf exRam none 2048 1024 1024 none).map
      (fun r => r.header.minimum_ram_size) = Except.ok 4352 := by
  obtain ⟨r, hr⟩ : ∃ r, elf_to_tbf exRam none 2048 1024 1024 none = Except.ok r := ⟨_, rfl⟩
  have h := c2_minimum_ram_size exRam none 2048 1024 1024 none r hr (by decide)
  rw [hr]
  simp only [Except.map]
  rw [h]
  rfl

/-- C5: a caller-supplied protected-region size smaller than the header
length makes `elf_to_tbf` fail with the too-small error (so nothing is
written); otherwise the protected-region size used is the value given by the caller,
or the header length when no value is supplied. -/
theorem c5_protected_region (input : ElfFile) (pkgOpt : Option String)
    (sl al kl : Nat) (parg : Option Nat) :
    (∀ v, parg = some v →
      v < tbfHeaderLength
          ((sectionsSorted input.sections).filter (fun s => isWfr s)).length
          (pkgOpt.getD "") →
      elf_to_tbf input pkgOpt sl al kl parg =
        .error (.protectedTooSmall v
          (tbfHeaderLength
            ((sectionsSorted input.sections).filter (fun s => isWfr s)).length
            (pkgOpt.getD "")))) ∧
    (∀ r, elf_to_tbf input pkgOpt sl al kl parg = .ok r →
      r.protected_region_size = parg.getD r.header_length) := by
  constructor
  · intro v hv hlt
    subst hv
    unfold elf_to_tbf
    simp only [TbfHeader.new, TbfHeader.create]
    rw [if_pos hlt]
  · intro r hok
    exact (elf_to_tbf_ok_cases input pkgOpt sl al kl parg r hok).2.1

/-- C5 witness: a protected-region request of 10 bytes is below the
32-byte header and is rejected; a request of 252 bytes is honoured. -/
theorem c5_protected_region_witness :
    elf_to_tbf exEmpty none 0 0 0 (some 10) =
      .error (.protectedTooSmall 10 32) ∧
    (elf_to_tbf exEmpty none 0 0 0 (some 252)).map
      (fun r => r.protected_region_size) = Except.ok 252 := by
  constructor
  · exact (c5_protected_region exEmpty none 0 0 0 (some 10)).1 10 rfl (by decide)
  · obtain ⟨r, hr⟩ : ∃ r, elf_to_tbf exEmpty none 0 0 0 (some 252) = Except.ok r := ⟨_, rfl⟩
    have h := (c5_protected_region exEmpty none 0 0 0 (some 252)).2 r hr
    rw [hr]
    simp only [Except.map]
    rw [h]
    rfl

/-- C10: `elf_to_tbf` is deterministic; two successful runs on the same
input and parameters produce identical output byte streams. -/
theorem c10_deterministic (input : ElfFile) (pkgOpt : Option String)
    (sl al kl : Nat) (parg : Option Nat) (r1 r2 : TbfResult)
    (h1 : elf_to_tbf input pkgOpt sl al kl parg = .ok r1)
    (h2 : elf_to_tbf input pkgOpt sl al kl parg = .ok r2) :
    r1.output = r2.output := by
  rw [h1] at h2
  injection h2 with h2
  rw [h2]

/-- C10 witness: two runs on the full example agree. -/
theorem c10_deterministic_witness :
    (elf_to_tbf exFull none 0 0 0 none).map (fun r => r.output) =
      (elf_to_tbf exFull none 0 0 0 none).map (fun r => r.output) := by
  obtain ⟨r, hr⟩ : ∃ r, elf_to_tbf exFull none 0 0 0 none = Except.ok r := ⟨_, rfl⟩
  have h := c10_deterministic exFull none 0 0 0 none r r hr hr
  rw [hr]

/-- C4: when the entry address falls inside two or more non-debug
sections, and the protected-region argument does not itself force an
earlier failure, the conversion fails with a duplicate-entry-point error,
so no output is produced. -/
theorem c4_duplicate_entry (input : ElfFile) (pkgOpt : Option String)
    (sl al kl : Nat) (parg : Option Nat)
    (hprot : ∀ v, parg = some v →
      tbfHeaderLength ((sectionsSorted input.sections).filter (fun s => isWfr s)).length
        (pkgOpt.getD "") ≤ v)
    (h2 : 2 ≤ input.sections.countP (fun s => isEntryBearing input.entry s)) :
    ∃ nm, elf_to_tbf input pkgOpt sl al kl parg =
      .error (.duplicateEntry nm) := by
  have hcount : 2 ≤ (sectionsSorted input.sections).countP
      (fun s => isEntryBearing input.entry s) := by
    rw [(sectionsSorted_perm input.sections).countP_eq]
    exact h2
  cases parg with
  | none =>
    unfold elf_to_tbf
    simp only [TbfHeader.new, TbfHeader.create]
    obtain ⟨nm, hnm⟩ := layoutLoop_dup_of_two input.entry
      (tbfHeaderLength ((sectionsSorted input.sections).filter (fun s => isWfr s)).length
        (pkgOpt.getD ""))
      (sectionsSorted input.sections)
      { binary_index :=
          tbfHeaderLength ((sectionsSorted input.sections).filter (fun s => isWfr s)).length
            (pkgOpt.getD ""),
        init_fn_offset := 0, entry_point_found := false,
        binary := List.replicate
          (tbfHeaderLength ((sectionsSorted input.sections).filter (fun s => isWfr s)).length
              (pkgOpt.getD "") -
            tbfHeaderLength ((sectionsSorted input.sections).filter (fun s => isWfr s)).length
              (pkgOpt.getD "")) 0,
        wfrs := [] } rfl hcount
    refine ⟨nm, ?_⟩
    unfold finishTbf
    simp only [hnm]
  | some v =>
    have hle := hprot v rfl
    unfold elf_to_tbf
    simp only [TbfHeader.new, TbfHeader.create]
    rw [if_neg (by omega)]
    obtain ⟨nm, hnm⟩ := layoutLoop_dup_of_two input.entry
      (tbfHeaderLength ((sectionsSorted input.sections).filter (fun s => isWfr s)).length
        (pkgOpt.getD ""))
      (sectionsSorted input.sections)
      { binary_index := v, init_fn_offset := 0, entry_point_found := false,
        binary := List.replicate
          (v - tbfHeaderLength
              ((sectionsSorted input.sections).filter (fun s => isWfr s)).length
              (pkgOpt.getD "")) 0,
        wfrs := [] } rfl hcount
    refine ⟨nm, ?_⟩
    unfold finishTbf
    simp only [hnm]

/-- C4 witness: the two-entry example fails with a duplicate-entry-point
error (the offending section is ".text2"). -/
theorem c4_duplicate_entry_witness :
    elf_to_tbf exDup none 0 0 0 none =
      Except.error (TbfError.duplicateEntry ".text2") := by
  obtain ⟨nm, hnm⟩ := c4_duplicate_entry exDup none 0 0 0 none
    (fun v hv => by cases hv) (by decide)
  have hv : elf_to_tbf exDup none 0 0 0 none =
      Except.error (TbfError.duplicateEntry ".text2") := rfl
  exact hv

/-- C9 counterexample: for the single 4-byte ".wfrdata" content section,
the content buffer is exactly its bytes, so its placement in the content
buffer is offset 0, yet the header records offset 40 (the header length
plus 0): the recorded pair is not the placement in the content buffer. -/
theorem c9_counterexample :
    (elf_to_tbf exWfr none 0 0 0 none).map
      (fun r => (r.header.wfr_values, r.binary)) =
      Except.ok ([(40, 4)], [1, 2, 3, 4]) ∧ (40 : Nat) ≠ 0 := by
  constructor
  · rfl
  · decide

/-- C9 amended: each writeable-flash-region content section gets one
(offset, size) pair recorded, in content-layout order, where the offset is
the placement of the section in the flash image as a whole (protected region
plus content laid out before it), i.e. the header length plus its
content-buffer position, both values truncated to 32 bits. -/
theorem c9_wfr_values (input : ElfFile) (pkgOpt : Option String)
    (sl al kl : Nat) (parg : Option Nat) (r : TbfResult)
    (hok : elf_to_tbf input pkgOpt sl al kl parg = .ok r) :
    r.header.wfr_values =
      wfrPairs r.protected_region_size (sectionsSorted input.sections) := by
  have h := elf_to_tbf_ok_cases input pkgOpt sl al kl parg r hok
  obtain ⟨st, heq, _, _, hwfr, _⟩ := h.2.2.2.2.2.2.2.2.2.2
  have hstate := layoutLoop_ok_state (sectionsSorted input.sections) _ st heq
  rw [hwfr, hstate.2.2]
  simp

/-- C9 amended witness: the single ".wfrdata" section of `exWfr` is
recorded as (40, 4): image offset 40 = header length 32 + slack 8... -/
theorem c9_wfr_values_witness :
    (elf_to_tbf exWfr none 0 0 0 none).map (fun r => r.header.wfr_values) =
      Except.ok [(40, 4)] := by
  obtain ⟨r, hr, hprs⟩ : ∃ r, elf_to_tbf exWfr none 0 0 0 none = Except.ok r ∧
      r.protected_region_size = 40 := ⟨_, rfl, rfl⟩
  have h := c9_wfr_values exWfr none 0 0 0 none r hr
  rw [hr]
  simp only [Except.map]
  rw [h, hprs]
  rfl

/-- C6: the bytes of a section are copied into the content buffer exactly when
its flags include writeable, executable or allocated, its type is
`PROGBITS` and its size is positive; the emitted sections appear after the
protected-region slack in sorted order, where the sort is ascending by
file offset with ties broken by the original section order (the sorted
pair list is lexicographically ordered and is a permutation of the
enumerated input). -/
theorem c6_content_selection (input : ElfFile) (pkgOpt : Option String)
    (sl al kl : Nat) (parg : Option Nat) (r : TbfResult)
    (hok : elf_to_tbf input pkgOpt sl al kl parg = .ok r) :
    r.binary = List.replicate (r.protected_region_size - r.header_length) 0 ++
      ((sectionsSorted input.sections).filter (fun s => isContent s)).flatMap
        (fun s => s.data) ∧
    (sortSecs (enumIdx 0 input.sections)).Pairwise
      (fun a b => a.2.offset < b.2.offset ∨ (a.2.offset = b.2.offset ∧ a.1 < b.1)) ∧
    List.Perm (sortSecs (enumIdx 0 input.sections)) (enumIdx 0 input.sections) := by
  refine ⟨?_, sortSecs_pairwise (enumIdx_pairwise 0 input.sections), sortSecs_perm _⟩
  have h := elf_to_tbf_ok_cases input pkgOpt sl al kl parg r hok
  obtain ⟨st, heq, hbin, _⟩ := h.2.2.2.2.2.2.2.2.2.2
  have hstate := layoutLoop_ok_state (sectionsSorted input.sections) _ st heq
  rw [hbin, hstate.2.1]
  rfl

/-- C6 witness: for the full example the content buffer is the 40 bytes of
".data" followed by the 64 bytes of ".text" (ascending file offset), with
no slack since no protected-region size was requested. -/
theorem c6_content_selection_witness :
    (elf_to_tbf exFull none 0 0 0 none).map (fun r => r.binary) =
      Except.ok (List.replicate 40 9 ++ List.replicate 64 7) := by
  obtain ⟨r, hr, hprs, hhl⟩ : ∃ r, elf_to_tbf exFull none 0 0 0 none = Except.ok r ∧
      r.protected_region_size = 32 ∧ r.header_length = 32 := ⟨_, rfl, rfl, rfl⟩
  have h := c6_content_selection exFull none 0 0 0 none r hr
  rw [hr]
  simp only [Except.map]
  rw [h.1, hprs, hhl]
  rfl

/-- C7: the relocation buffer is the concatenation, in section-sort order,
of the raw bytes of the section named ".rel" ++ X for each section X whose
flags are exactly writeable+allocated (a missing ".rel" ++ X contributes
nothing), and the output stream carries the length of the buffer as 4
little-endian bytes immediately before the buffer. -/
theorem c7_relocation (input : ElfFile) (pkgOpt : Option String)
    (sl al kl : Nat) (parg : Option Nat) (r : TbfResult)
    (hok : elf_to_tbf input pkgOpt sl al kl parg = .ok r) :
    r.relocation_binary =
      (((sectionsSorted input.sections).filter
          (fun s => s.flags == SHF_WRITE + SHF_ALLOC)).map (fun s => s.name)).flatMap
        (fun nm =>
          match input.sections.find? (fun t => t.name == ".rel" ++ nm) with
          | some t => t.data
          | none => []) ∧
    r.output = r.header.generate ++ r.binary ++ leBytes4 r.relocation_binary.length ++
      r.relocation_binary ++ List.replicate r.post_content_pad 0 := by
  have h := elf_to_tbf_ok_cases input pkgOpt sl al kl parg r hok
  exact ⟨h.2.2.2.2.2.2.1, h.2.2.2.2.2.2.2.2.2.1⟩

/-- C7 witness: in the full example only ".data" has flags exactly
writeable+allocated; its companion ".rel.data" contributes its 8 bytes,
and the output carries the length field 8 immediately before them. -/
theorem c7_relocation_witness :
    (elf_to_tbf exFull none 0 0 0 none).map
      (fun r => (r.relocation_binary, (r.output.drop 136).take 12)) =
      Except.ok ([1, 2, 3, 4, 5, 6, 7, 8], [8, 0, 0, 0, 1, 2, 3, 4, 5, 6, 7, 8]) := by
  have h := c7_relocation exFull none 0 0 0 none _ rfl
  rfl

/-- Length bookkeeping for a successful run: the pre-pad index counts the
header, the content buffer, the 4-byte length field and the relocation
bytes, and the output stream length adds the padding. -/
lemma run_length_facts (input : ElfFile) (pkgOpt : Option String)
    (sl al kl : Nat) (parg : Option Nat) (r : TbfResult)
    (hok : elf_to_tbf input pkgOpt sl al kl parg = .ok r)
    (hdata : ∀ s ∈ input.sections, isContent s = true → s.data.length = s.size) :
    r.output.length = r.header_length + r.binary.length + 4 +
      r.relocation_binary.length + r.post_content_pad ∧
    r.prepad_index = r.header_length + r.binary.length + 4 +
      r.relocation_binary.length ∧
    0 < r.prepad_index := by
  have h := elf_to_tbf_ok_cases input pkgOpt sl al kl parg r hok
  have hle := h.2.2.1
  obtain ⟨st, heq, hbin, _, _, hpre⟩ := h.2.2.2.2.2.2.2.2.2.2
  have hstate := layoutLoop_ok_state (sectionsSorted input.sections) _ st heq
  have hdata2 : ∀ s ∈ sectionsSorted input.sections, isContent s = true →
      s.data.length = s.size :=
    fun s hs => hdata s ((sectionsSorted_perm input.sections).mem_iff.mp hs)
  have hclen := contentBytes_length (sectionsSorted input.sections) hdata2
  have hblen : r.binary.length = (r.protected_region_size - r.header_length) +
      contentSizeSum (sectionsSorted input.sections) := by
    rw [hbin, hstate.2.1]
    simp only [List.length_append, List.length_replicate]
    rw [hclen]
  have hbi : st.binary_index = r.protected_region_size +
      contentSizeSum (sectionsSorted input.sections) := hstate.1
  have hgen : r.header.generate.length = r.header_length := by
    rw [generate_length, h.2.2.2.1, h.2.2.2.2.1, ← h.1]
  refine ⟨?_, ?_, ?_⟩
  · rw [h.2.2.2.2.2.2.2.2.2.1]
    simp only [List.length_append, List.length_replicate, leBytes4, List.length_cons,
      List.length_nil]
    rw [hgen]
  · rw [hpre, hbi, hblen]
    omega
  · rw [hpre]
    omega

/-- C8: once set, the total image size equals header length + content
length + 4 + relocation length + padding, and equals the exact number of
bytes written to the output stream, which consists of the header bytes,
the content bytes, the 4-byte length field, the relocation bytes and the
padding zeros, in that order. -/
theorem c8_total_size (input : ElfFile) (pkgOpt : Option String)
    (sl al kl : Nat) (parg : Option Nat) (r : TbfResult)
    (hok : elf_to_tbf input pkgOpt sl al kl parg = .ok r)
    (hdata : ∀ s ∈ input.sections, isContent s = true → s.data.length = s.size)
    (hsmall : r.prepad_index ≤ 2 ^ 31) :
    r.header.total_size = r.header_length + r.binary.length + 4 +
      r.relocation_binary.length + r.post_content_pad ∧
    r.header.total_size = r.output.length ∧
    r.output = r.header.generate ++ r.binary ++ leBytes4 r.relocation_binary.length ++
      r.relocation_binary ++ List.replicate r.post_content_pad 0 := by
  have h := elf_to_tbf_ok_cases input pkgOpt sl al kl parg r hok
  have hlen := run_length_facts input pkgOpt sl al kl parg r hok hdata
  have hpad := h.2.2.2.2.2.2.2.1
  have hspec := padded_total_spec r.prepad_index hlen.2.2 hsmall
  rw [← hpad] at hspec
  have htot : r.header.total_size = r.prepad_index + r.post_content_pad := by
    rw [h.2.2.2.2.2.2.2.2.1]
    have hU : (2 : Nat) ^ 31 < U32 := by rw [U32_eq]; norm_num
    exact Nat.mod_eq_of_lt (by omega)
  refine ⟨?_, ?_, h.2.2.2.2.2.2.2.2.2.1⟩
  · rw [htot, hlen.2.1]
  · rw [htot, hlen.1, hlen.2.1]

/-- C8 witness: the full example records total size 512 and writes exactly
512 bytes. -/
theorem c8_total_size_witness :
    (elf_to_tbf exFull none 0 0 0 none).map
      (fun r => (r.header.total_size, r.output.length)) = Except.ok (512, 512) := by
  obtain ⟨r, hr, hpre, htot, hout⟩ : ∃ r, elf_to_tbf exFull none 0 0 0 none = Except.ok r ∧
      r.prepad_index = 148 ∧ r.header.total_size = 512 ∧ r.output.length = 512 :=
    ⟨_, rfl, rfl, rfl, rfl⟩
  have h := c8_total_size exFull none 0 0 0 none r hr (by decide) (by rw [hpre]; decide)
  rw [hr]
  simp only [Except.map]
  rw [htot, hout]

/-- C1 counterexample: with a caller-supplied protected-region size of 252
and an otherwise empty input, the pre-pad length is 256 (a power of two),
so no padding is applied and the accepted conversion records total size
256 and writes 256 bytes, which is smaller than 512. -/
theorem c1_counterexample :
    (elf_to_tbf exEmpty none 0 0 0 (some 252)).map
      (fun r => (r.header.total_size, r.output.length)) = Except.ok (256, 256) ∧
    (256 : Nat) < 512 := by
  constructor
  · rfl
  · decide

/-- C1 amended: the total size recorded in the header is always an exact
power of two and equals the byte count written to the output stream, but
it can be smaller than 512: a pre-pad length that is already an exact
power of two receives zero padding even when it is below 512. -/
theorem c1_total_power_of_two (input : ElfFile) (pkgOpt : Option String)
    (sl al kl : Nat) (parg : Option Nat) (r : TbfResult)
    (hok : elf_to_tbf input pkgOpt sl al kl parg = .ok r)
    (hdata : ∀ s ∈ input.sections, isContent s = true → s.data.length = s.size)
    (hsmall : r.prepad_index ≤ 2 ^ 31) :
    (∃ k, r.header.total_size = 2 ^ k) ∧
    r.header.total_size = r.output.length := by
  have h := elf_to_tbf_ok_cases input pkgOpt sl al kl parg r hok
  have hlen := run_length_facts input pkgOpt sl al kl parg r hok hdata
  have hpad := h.2.2.2.2.2.2.2.1
  have hspec := padded_total_spec r.prepad_index hlen.2.2 hsmall
  rw [← hpad] at hspec
  have htot : r.header.total_size = r.prepad_index + r.post_content_pad := by
    rw [h.2.2.2.2.2.2.2.2.1]
    have hU : (2 : Nat) ^ 31 < U32 := by rw [U32_eq]; norm_num
    exact Nat.mod_eq_of_lt (by omega)
  constructor
  · obtain ⟨k, hk⟩ := hspec.1
    exact ⟨k, by rw [htot, hk]⟩
  · rw [htot, hlen.1, hlen.2.1]

/-- C1 amended witness: the writeable-flash-region example pads its 48
pre-pad bytes up to 512 = 2 ^ 9, written in full. -/
theorem c1_total_power_of_two_witness :
    (elf_to_tbf exWfr none 0 0 0 none).map
      (fun r => (r.header.total_size, r.output.length)) = Except.ok (512, 512) ∧
    (512 : Nat) = 2 ^ 9 := by
  obtain ⟨r, hr, hpre, htot, hout⟩ : ∃ r, elf_to_tbf exWfr none 0 0 0 none = Except.ok r ∧
      r.prepad_index = 48 ∧ r.header.total_size = 512 ∧ r.output.length = 512 :=
    ⟨_, rfl, rfl, rfl, rfl⟩
  have h := c1_total_power_of_two exWfr none 0 0 0 none r hr (by decide) (by rw [hpre]; decide)
  constructor
  · rw [hr]
    simp only [Except.map]
    rw [htot, hout]
  · decide

/-- C3: when exactly one section of the sorted list is entry-bearing, the
init-function offset recorded in the header equals (entry address − that
virtual address of that section) + the start offset of the section within the content
buffer (the protected-region slack plus the sizes of the content sections
laid out before it), absent 32-bit overflow; when no section is
entry-bearing the recorded offset is 0. -/
theorem c3_init_fn_offset (input : ElfFile) (pkgOpt : Option String)
    (sl al kl : Nat) (parg : Option Nat) (r : TbfResult)
    (hok : elf_to_tbf input pkgOpt sl al kl parg = .ok r) :
    (∀ pre s post,
      sectionsSorted input.sections = pre ++ s :: post →
      (∀ t ∈ pre, isEntryBearing input.entry t = false) →
      (∀ t ∈ post, isEntryBearing input.entry t = false) →
      isEntryBearing input.entry s = true →
      (input.entry - s.addr) +
        (r.protected_region_size + contentSizeSum pre - r.header_length) < U32 →
      r.header.init_fn_offset =
        (input.entry - s.addr) +
          ((r.protected_region_size - r.header_length) + contentSizeSum pre)) ∧
    ((∀ t ∈ sectionsSorted input.sections, isEntryBearing input.entry t = false) →
      r.header.init_fn_offset = 0) := by
  have h := elf_to_tbf_ok_cases input pkgOpt sl al kl parg r hok
  have hle := h.2.2.1
  obtain ⟨st, heq, _, hinit, _, _⟩ := h.2.2.2.2.2.2.2.2.2.2
  constructor
  · intro pre s post hsplit hpre2 hpost hs hsm
    obtain ⟨r2, hr2, hinit2⟩ := layoutLoop_single_entry input.entry r.header_length pre post s
      { binary_index := r.protected_region_size, init_fn_offset := 0,
        entry_point_found := false,
        binary := List.replicate (r.protected_region_size - r.header_length) 0,
        wfrs := [] } hpre2 hpost hs rfl
    rw [hsplit] at heq
    rw [heq] at hr2
    injection hr2 with hr2
    subst hr2
    rw [hinit, hinit2]
    have hmod := mod_add_mod_U32 hsm
    rw [hmod]
    omega
  · intro hnone
    obtain ⟨r2, hr2, hinit2, _⟩ := layoutLoop_no_entry input.entry r.header_length
      (sectionsSorted input.sections)
      { binary_index := r.protected_region_size, init_fn_offset := 0,
        entry_point_found := false,
        binary := List.replicate (r.protected_region_size - r.header_length) 0,
        wfrs := [] } hnone
    rw [heq] at hr2
    injection hr2 with hr2
    subst hr2
    rw [hinit, hinit2]

/-- C3 witness: the worked example of the spec: entry 0x2010 lies in ".text" at
address 0x2000, placed after the 40 content bytes of ".data" with no
slack, so the recorded init offset is 16 + 40 = 56. -/
theorem c3_init_fn_offset_witness :
    (elf_to_tbf exFull none 0 0 0 none).map (fun r => r.header.init_fn_offset) =
      Except.ok 56 := by
  obtain ⟨r, hr, hprs, hhl⟩ : ∃ r, elf_to_tbf exFull none 0 0 0 none = Except.ok r ∧
      r.protected_region_size = 32 ∧ r.header_length = 32 := ⟨_, rfl, rfl, rfl⟩
  have h := (c3_init_fn_offset exFull none 0 0 0 none r hr).1 [secData] secText [secRelData]
    (by decide) (by decide) (by decide) (by decide)
    (by rw [hprs, hhl]; decide)
  rw [hr]
  simp only [Except.map]
  rw [h, hprs, hhl]
  rfl
